import Mathlib

/-!
Verification of the minigrep repository (src/src/lib.rs).

Strings are modelled as `List Char`. Rust's `str::lines`, `str::contains`
and `str::to_lowercase` are given executable models below; the repository's
functions (`Config::parse`, `search_case_sensitive`, `search_case_insensitive`,
`search`, `read_file`, `run`) are translated directly from the source.
-/

namespace Minigrep

/-- A line number. The source uses `type Line = u64`; line numbers are bounded
by the length of the in-memory contents, so `Nat` is a faithful model. -/
abbrev Line := Nat

/-- Model of `str::contains` for a string pattern: `containsStr hay needle`
is true iff `needle` occurs as a contiguous substring of `hay`. -/
def containsStr : List Char → List Char → Bool
  | [], needle => needle.isEmpty
  | hay@(_ :: rest), needle => needle.isPrefixOf hay || containsStr rest needle

/-- ASCII restriction of `str::to_lowercase` (per-character conversion).
This suffices for the claims whose content does not depend on which
lowercase table is used; `rustToLowercase` below refines it with the
context-sensitive final-sigma rule of the real `str::to_lowercase`, for the
one claim where the distinction matters. -/
def strToLower (s : List Char) : List Char := s.map Char.toLower

/-- Split on the newline character; always returns at least one segment.
`splitOnNl s` lists the `\n`-delimited segments of `s` (newlines removed). -/
def splitOnNl : List Char → List (List Char)
  | [] => [[]]
  | c :: rest =>
      let parts := splitOnNl rest
      if c = '\n' then [] :: parts
      else (c :: parts.headD []) :: parts.tail

/-- Remove a single trailing carriage return, if present. -/
def stripTrailingCr (l : List Char) : List Char :=
  if l.getLast? = some '\r' then l.dropLast else l

/-- Post-processing of the `\n`-split performed by Rust's `str::lines`:
every newline-terminated segment loses one trailing `\r`; the final segment
(not newline-terminated) is kept verbatim, except that an empty final
segment (i.e. the contents end with a newline, or are empty) yields no line. -/
def linesAux : List (List Char) → List (List Char)
  | [] => []
  | [l] => if l = [] then [] else [l]
  | l :: rest => stripTrailingCr l :: linesAux rest

/-- Model of Rust's `str::lines`. -/
def rustLines (contents : List Char) : List (List Char) :=
  linesAux (splitOnNl contents)

/-- `pub struct Config` from the source. -/
structure Config where
  query : List Char
  filename : List Char
  case_sensitive : Bool
deriving DecidableEq, Repr

/-- `pub struct Match` from the source. -/
structure Match where
  line : Line
  text : List Char
deriving DecidableEq, Repr

/-- `static USAGE_STR` from the source. -/
def USAGE_STR : List Char := "Usage:\nminigrep [-i] <QUERY> <FILE>".toList

/-- `Config::parse` from the source: matches on `args.len()`; length 3 and 4
are the valid shapes, smaller lengths give "Not enough arguments", larger
give "Too many arguments", and length 4 with a first user argument other
than `-i` gives the invalid-option error. -/
def Config.parse (args : List (List Char)) : Except (List Char) Config :=
  match args with
  | [_, q, f] => .ok ⟨q, f, true⟩
  | [_, flag, q, f] =>
      if flag = "-i".toList then .ok ⟨q, f, false⟩
      else .error ("First argument '".toList ++ flag ++
                   "' is not a valid option\n".toList ++ USAGE_STR)
  | _ =>
      if args.length < 3 then .error ("Not enough arguments\n".toList ++ USAGE_STR)
      else .error ("Too many arguments\n".toList ++ USAGE_STR)

/-- The loop shared by `search_case_sensitive` and `search_case_insensitive`:
walk the lines with a 1-based counter, keeping `Match`es for the lines the
predicate accepts. -/
def searchLoop (p : List Char → Bool) : List (List Char) → Line → List Match
  | [], _ => []
  | text :: rest, line =>
      if p text then ⟨line, text⟩ :: searchLoop p rest (line + 1)
      else searchLoop p rest (line + 1)

/-- `search_case_sensitive` from the source. -/
def search_case_sensitive (query contents : List Char) : List Match :=
  searchLoop (fun text => containsStr text query) (rustLines contents) 1

/-- `search_case_insensitive` from the source: the query is lowercased once,
each line is lowercased for the containment test, and the original line text
is stored in the emitted `Match`. -/
def search_case_insensitive (query contents : List Char) : List Match :=
  let query_lower := strToLower query
  searchLoop (fun text => containsStr (strToLower text) query_lower)
    (rustLines contents) 1

/-- `search` from the source. -/
def search (query contents : List Char) (case_sensitive : Bool) : List Match :=
  if case_sensitive then search_case_sensitive query contents
  else search_case_insensitive query contents

/-- The per-line acceptance test of `search`, by mode. -/
def lineMatches (query text : List Char) (case_sensitive : Bool) : Bool :=
  if case_sensitive then containsStr text query
  else containsStr (strToLower text) (strToLower query)

/-- `read_file` from the source. The file system (Rust's
`fs::read_to_string`) is modelled as an oracle `fs` mapping a file name to
either its contents or an OS-level error description. -/
def read_file (fs : List Char → Except (List Char) (List Char))
    (filename : List Char) : Except (List Char) (List Char) :=
  match fs filename with
  | .ok s => .ok s
  | .error e => .error ("Error reading \"".toList ++ filename ++ "\": ".toList ++ e)

/-- `run` from the source, parameterised by the search function so that the
shape of the control flow (parse, then read, then search, then print) is
visible in the model; the printed output is modelled as the returned list of
match texts (the source's `Display` for `Match` prints `self.text`). -/
def runWith (searchFn : List Char → List Char → Bool → List Match)
    (fs : List Char → Except (List Char) (List Char))
    (args : List (List Char)) : Except (List Char) (List (List Char)) :=
  match Config.parse args with
  | .error e => .error e
  | .ok config =>
      match read_file fs config.filename with
      | .error e => .error e
      | .ok contents =>
          .ok ((searchFn config.query contents config.case_sensitive).map Match.text)

/-- `run` from the source. -/
def run (fs : List Char → Except (List Char) (List Char))
    (args : List (List Char)) : Except (List Char) (List (List Char)) :=
  runWith search fs args

/-! ### Unicode-aware model of `str::to_lowercase`

Rust's `str::to_lowercase` lowercases every character through the Unicode
table except capital sigma, which it special-cases: `map_uppercase_sigma`
produces the final form `ς` when the sigma is in a `Final_Sigma` context
(preceded, skipping `Case_Ignorable` characters, by a `Cased` character and
not so followed) and `σ` otherwise. The Unicode properties are modelled on
the ranges this development evaluates them on (ASCII and the Greek letter
block); Rust consults the full Unicode tables. -/

/-- The Unicode `Cased` property, modelled on ASCII letters and the Greek
letter range U+0391–U+03C9; characters outside these ranges are treated as
uncased. -/
def isCased (c : Char) : Bool :=
  ('a' ≤ c && c ≤ 'z') || ('A' ≤ c && c ≤ 'Z') ||
    (0x391 ≤ c.toNat && c.toNat ≤ 0x3C9)

/-- The Unicode `Case_Ignorable` property, modelled on its ASCII members
(apostrophe, full stop, colon, circumflex and grave accents); combining
marks and the other non-ASCII members lie outside the modelled ranges. -/
def isCaseIgnorable (c : Char) : Bool :=
  c.toNat = 0x27 || c.toNat = 0x2E || c.toNat = 0x3A ||
    c.toNat = 0x5E || c.toNat = 0x60

/-- Rust's `case_ignorable_then_cased` helper: skip `Case_Ignorable`
characters, then test whether the first remaining character is `Cased`. -/
def caseIgnorableThenCased (l : List Char) : Bool :=
  match l.dropWhile isCaseIgnorable with
  | [] => false
  | c :: _ => isCased c

/-- Rust's `map_uppercase_sigma` condition (the Unicode `Final_Sigma`
context): the characters before the sigma, read backwards, reach a cased
character, and the characters after it do not. -/
def isFinalSigma (before after : List Char) : Bool :=
  caseIgnorableThenCased before.reverse && !caseIgnorableThenCased after

/-- The per-character lowercase conversion (`char::to_lowercase`), modelled
on the ranges this development evaluates it on: ASCII letters and the Greek
capitals U+0391–U+03AB map down by 32 code points, matching the Unicode
simple lowercase mapping there; other characters are kept unchanged. -/
def charToLowercase (c : Char) : List Char :=
  if 'A' ≤ c && c ≤ 'Z' then [c.toLower]
  else if 0x391 ≤ c.toNat && c.toNat ≤ 0x3AB && c.toNat ≠ 0x3A2 then
    [Char.ofNat (c.toNat + 32)]
  else [c]

/-- The loop of `str::to_lowercase`: each character lowercases through the
per-character table, except capital sigma, which yields `ς` in a word-final
position and `σ` otherwise; `before` is the already-consumed prefix, in
order, matching the `from[..i]` / `from[i + 1..]` slices of the source. -/
def rustToLowercaseGo : List Char → List Char → List Char
  | _, [] => []
  | before, c :: rest =>
      (if c = 'Σ' then (if isFinalSigma before rest then ['ς'] else ['σ'])
       else charToLowercase c) ++ rustToLowercaseGo (before ++ [c]) rest

/-- Model of Rust's `str::to_lowercase` with the context-sensitive
final-sigma rule. -/
def rustToLowercase (s : List Char) : List Char := rustToLowercaseGo [] s

/-- `search_case_insensitive` from the source, with `to_lowercase` modelled
by the Unicode-aware `rustToLowercase` instead of the ASCII `strToLower`. -/
def search_case_insensitiveU (query contents : List Char) : List Match :=
  let query_lower := rustToLowercase query
  searchLoop (fun text => containsStr (rustToLowercase text) query_lower)
    (rustLines contents) 1

/-- `search` from the source, with its case-insensitive branch taken from
the Unicode-aware model. -/
def searchU (query contents : List Char) (case_sensitive : Bool) : List Match :=
  if case_sensitive then search_case_sensitive query contents
  else search_case_insensitiveU query contents

/-! ### Helper lemmas -/

theorem isPrefixOf_eq_true_iff (l₁ l₂ : List Char) :
    l₁.isPrefixOf l₂ = true ↔ ∃ t, l₂ = l₁ ++ t := by
  induction l₁ generalizing l₂ with
  | nil => simp [List.isPrefixOf]
  | cons a as ih =>
    cases l₂ with
    | nil => simp [List.isPrefixOf]
    | cons b bs =>
      simp only [List.isPrefixOf, Bool.and_eq_true, beq_iff_eq, ih, List.cons_append,
        List.cons.injEq]
      constructor
      · rintro ⟨rfl, t, rfl⟩; exact ⟨t, rfl, rfl⟩
      · rintro ⟨t, rfl, rfl⟩; exact ⟨rfl, t, rfl⟩

theorem containsStr_iff (hay needle : List Char) :
    containsStr hay needle = true ↔ ∃ pre post, hay = pre ++ needle ++ post := by
  induction hay with
  | nil =>
    simp only [containsStr, List.isEmpty_iff]
    constructor
    · rintro rfl; exact ⟨[], [], rfl⟩
    · rintro ⟨pre, post, h⟩
      have hlen := congrArg List.length h
      simp only [List.length_nil, List.length_append] at hlen
      exact List.length_eq_zero.mp (by omega)
  | cons a rest ih =>
    simp only [containsStr, Bool.or_eq_true, isPrefixOf_eq_true_iff, ih]
    constructor
    · rintro (⟨t, ht⟩ | ⟨pre, post, h⟩)
      · exact ⟨[], t, by simp [ht]⟩
      · exact ⟨a :: pre, post, by simp [h]⟩
    · rintro ⟨pre, post, h⟩
      cases pre with
      | nil => exact Or.inl ⟨post, by simpa using h⟩
      | cons x xs =>
        rw [List.cons_append, List.cons_append] at h
        injection h with h1 h2
        exact Or.inr ⟨xs, post, by simpa using h2⟩

theorem containsStr_nil (hay : List Char) : containsStr hay [] = true := by
  cases hay <;> simp [containsStr, List.isPrefixOf, List.isEmpty]

theorem containsStr_map (f : Char → Char) (hay needle : List Char)
    (h : containsStr hay needle = true) :
    containsStr (hay.map f) (needle.map f) = true := by
  rw [containsStr_iff] at h ⊢
  obtain ⟨pre, post, rfl⟩ := h
  exact ⟨pre.map f, post.map f, by simp⟩

theorem mem_searchLoop (p : List Char → Bool) (lns : List (List Char)) (k n : Nat)
    (t : List Char) :
    (⟨n, t⟩ : Match) ∈ searchLoop p lns k ↔
      ∃ i, i < lns.length ∧ n = k + i ∧ t = lns.getD i [] ∧ p t = true := by
  induction lns generalizing k with
  | nil => simp [searchLoop]
  | cons l rest ih =>
    rw [searchLoop]
    by_cases hp : p l = true
    · rw [if_pos hp]
      simp only [List.mem_cons, Match.mk.injEq, ih (k + 1)]
      constructor
      · rintro (⟨rfl, rfl⟩ | ⟨i, hi, rfl, rfl, hpt⟩)
        · exact ⟨0, by simp, by omega, by simp, hp⟩
        · exact ⟨i + 1, by simp only [List.length_cons]; omega, by omega, by simp, by simpa using hpt⟩
      · rintro ⟨i, hi, rfl, rfl, hpt⟩
        cases i with
        | zero => exact Or.inl ⟨by simp, by simp⟩
        | succ j =>
          refine Or.inr ⟨j, ?_, by omega, by simp, by simpa using hpt⟩
          simp only [List.length_cons] at hi
          omega
    · rw [if_neg hp]
      rw [ih (k + 1)]
      constructor
      · rintro ⟨i, hi, rfl, rfl, hpt⟩
        exact ⟨i + 1, by simp only [List.length_cons]; omega, by omega, by simp, by simpa using hpt⟩
      · rintro ⟨i, hi, rfl, rfl, hpt⟩
        cases i with
        | zero => simp at hpt; exact absurd hpt hp
        | succ j =>
          refine ⟨j, ?_, by omega, by simp, by simpa using hpt⟩
          simp only [List.length_cons] at hi
          omega

theorem searchLoop_text_prop (p : List Char → Bool) (lns : List (List Char)) (k : Nat) :
    ∀ m ∈ searchLoop p lns k, p m.text = true := by
  induction lns generalizing k with
  | nil => simp [searchLoop]
  | cons l rest ih =>
    intro m hm
    rw [searchLoop] at hm
    by_cases hp : p l = true
    · rw [if_pos hp] at hm
      rcases List.mem_cons.mp hm with rfl | hm'
      · exact hp
      · exact ih (k + 1) m hm'
    · rw [if_neg hp] at hm
      exact ih (k + 1) m hm

theorem searchLoop_line_ge (p : List Char → Bool) (lns : List (List Char)) (k : Nat) :
    ∀ m ∈ searchLoop p lns k, k ≤ m.line := by
  induction lns generalizing k with
  | nil => simp [searchLoop]
  | cons l rest ih =>
    intro m hm
    rw [searchLoop] at hm
    by_cases hp : p l = true
    · rw [if_pos hp] at hm
      rcases List.mem_cons.mp hm with rfl | hm'
      · exact le_refl k
      · exact Nat.le_of_succ_le (ih (k + 1) m hm')
    · rw [if_neg hp] at hm
      exact Nat.le_of_succ_le (ih (k + 1) m hm)

theorem searchLoop_sorted (p : List Char → Bool) (lns : List (List Char)) (k : Nat) :
    ((searchLoop p lns k).map Match.line).Pairwise (fun a b => a < b) := by
  induction lns generalizing k with
  | nil => simp [searchLoop]
  | cons l rest ih =>
    rw [searchLoop]
    by_cases hp : p l = true
    · rw [if_pos hp]
      rw [List.map_cons]
      refine List.Pairwise.cons ?_ (ih (k + 1))
      intro x hx
      obtain ⟨m, hm, rfl⟩ := List.mem_map.mp hx
      exact Nat.lt_of_succ_le (searchLoop_line_ge p rest (k + 1) m hm)
    · rw [if_neg hp]
      exact ih (k + 1)

theorem searchLoop_all (p : List Char → Bool) (lns : List (List Char))
    (h : ∀ l ∈ lns, p l = true) (k : Nat) :
    (searchLoop p lns k).map Match.text = lns ∧
    (searchLoop p lns k).map Match.line = List.range' k lns.length := by
  induction lns generalizing k with
  | nil => simp [searchLoop]
  | cons l rest ih =>
    have hl : p l = true := h l (List.mem_cons_self l rest)
    have hrest : ∀ l' ∈ rest, p l' = true := fun l' hl' => h l' (List.mem_cons_of_mem l hl')
    rw [searchLoop, if_pos hl]
    obtain ⟨ht, hn⟩ := ih hrest (k + 1)
    refine ⟨by simp [ht], ?_⟩
    rw [List.length_cons, List.range'_succ, List.map_cons, hn]

theorem splitOnNl_ne_nil (s : List Char) : splitOnNl s ≠ [] := by
  cases s with
  | nil => simp [splitOnNl]
  | cons c rest =>
    rw [splitOnNl]
    split <;> simp

theorem splitOnNl_cons_nl (rest : List Char) :
    splitOnNl ('\n' :: rest) = [] :: splitOnNl rest := by
  simp [splitOnNl]

theorem splitOnNl_cons_other (c : Char) (rest : List Char) (h : c ≠ '\n') :
    splitOnNl (c :: rest) =
      (c :: (splitOnNl rest).headD []) :: (splitOnNl rest).tail := by
  simp [splitOnNl, h]

theorem splitOnNl_crlf (u v : List Char) (hu : '\n' ∉ u) :
    splitOnNl (u ++ '\r' :: '\n' :: v) = (u ++ ['\r']) :: splitOnNl v := by
  induction u with
  | nil =>
    rw [List.nil_append, splitOnNl_cons_other '\r' _ (by decide), splitOnNl_cons_nl]
    simp
  | cons c cs ih =>
    have hc : c ≠ '\n' := fun h => hu (by simp [h])
    have hcs : '\n' ∉ cs := fun h => hu (List.mem_cons_of_mem _ h)
    rw [List.cons_append, splitOnNl_cons_other c _ hc, ih hcs]
    simp

theorem linesAux_cons_cons (l l' : List Char) (rest : List (List Char)) :
    linesAux (l :: l' :: rest) = stripTrailingCr l :: linesAux (l' :: rest) := rfl

theorem linesAux_length (parts : List (List Char)) (h : parts ≠ []) :
    (linesAux parts).length =
      if parts.getLast? = some ([] : List Char) then parts.length - 1
      else parts.length := by
  induction parts with
  | nil => exact absurd rfl h
  | cons l rest ih =>
    cases rest with
    | nil =>
      by_cases hl : l = [] <;> simp [linesAux, hl]
    | cons l' rest' =>
      rw [linesAux_cons_cons, List.length_cons, ih (by simp), List.getLast?_cons_cons]
      split <;> (simp only [List.length_cons]; try omega)

theorem linesAux_getD (parts : List (List Char)) (i : Nat)
    (h : i < (linesAux parts).length) :
    (linesAux parts).getD i [] =
      if i + 1 = parts.length then parts.getD i []
      else stripTrailingCr (parts.getD i []) := by
  induction parts generalizing i with
  | nil => simp [linesAux] at h
  | cons l rest ih =>
    cases rest with
    | nil =>
      by_cases hl : l = []
      · simp [linesAux, hl] at h
      · rw [linesAux] at h
        rw [if_neg hl] at h
        have : i = 0 := by simpa using h
        subst this
        simp [linesAux, hl]
    | cons l' rest' =>
      rw [linesAux_cons_cons] at h ⊢
      cases i with
      | zero =>
        have : ¬ (0 + 1 = (l :: l' :: rest').length) := by simp
        rw [if_neg this]
        simp
      | succ j =>
        have hlt : j < (linesAux (l' :: rest')).length := by
          rw [List.length_cons] at h
          omega
        simp only [List.getD_cons_succ]
        rw [ih j hlt]
        simp only [List.length_cons]
        by_cases hc : j + 1 = rest'.length + 1
        · rw [if_pos hc, if_pos (by omega)]
        · rw [if_neg hc, if_neg (by omega)]

theorem rustLines_crlf (u v : List Char) (hu : '\n' ∉ u) :
    rustLines (u ++ '\r' :: '\n' :: v) = u :: rustLines v := by
  rw [rustLines, splitOnNl_crlf u v hu]
  obtain ⟨p, ps, hps⟩ : ∃ p ps, splitOnNl v = p :: ps := by
    cases hsp : splitOnNl v with
    | nil => exact absurd hsp (splitOnNl_ne_nil v)
    | cons p ps => exact ⟨p, ps, rfl⟩
  rw [hps, linesAux_cons_cons, rustLines, hps]
  congr 1
  rw [stripTrailingCr, List.getLast?_concat, if_pos rfl, List.dropLast_concat]

theorem search_eq_searchLoop (q c : List Char) (cs : Bool) :
    search q c cs = searchLoop (fun t => lineMatches q t cs) (rustLines c) 1 := by
  cases cs <;> rfl

theorem rustToLowercaseGo_cons (b : List Char) (c : Char) (rest : List Char) :
    rustToLowercaseGo b (c :: rest) =
      (if c = 'Σ' then (if isFinalSigma b rest then ['ς'] else ['σ'])
       else charToLowercase c) ++ rustToLowercaseGo (b ++ [c]) rest := rfl

theorem rustToLowercaseGo_sigma_free (q : List Char) (hq : 'Σ' ∉ q) :
    ∀ b y, rustToLowercaseGo b (q ++ y) =
      rustToLowercase q ++ rustToLowercaseGo (b ++ q) y := by
  induction q with
  | nil =>
    intro b y
    simp [rustToLowercase, rustToLowercaseGo]
  | cons ch cs ih =>
    intro b y
    have hch : ch ≠ 'Σ' := fun h => hq (by simp [h])
    have hcs : 'Σ' ∉ cs := fun h => hq (List.mem_cons_of_mem ch h)
    have hcs' := ih hcs
    have h1 : rustToLowercaseGo [ch] cs = rustToLowercase cs := by
      have h2 := hcs' [ch] []
      simpa [rustToLowercaseGo] using h2
    rw [List.cons_append, rustToLowercaseGo_cons, if_neg hch, hcs' (b ++ [ch]) y]
    rw [show rustToLowercase (ch :: cs) =
          charToLowercase ch ++ rustToLowercaseGo [ch] cs from by
      rw [rustToLowercase, rustToLowercaseGo_cons, if_neg hch]
      rfl]
    rw [h1]
    simp [List.append_assoc]

theorem rustToLowercase_infix (pre q post : List Char) (hq : 'Σ' ∉ q) :
    ∃ A B, rustToLowercase (pre ++ q ++ post) = A ++ rustToLowercase q ++ B := by
  suffices h : ∀ b pre', ∃ A B,
      rustToLowercaseGo b (pre' ++ q ++ post) = A ++ rustToLowercase q ++ B by
    exact h [] pre
  intro b pre'
  induction pre' generalizing b with
  | nil =>
    refine ⟨[], rustToLowercaseGo (b ++ q) post, ?_⟩
    have := rustToLowercaseGo_sigma_free q hq b post
    simpa using this
  | cons ch cs ih =>
    obtain ⟨A, B, hAB⟩ := ih (b ++ [ch])
    refine ⟨(if ch = 'Σ' then (if isFinalSigma b (cs ++ q ++ post) then ['ς'] else ['σ'])
             else charToLowercase ch) ++ A, B, ?_⟩
    simp only [List.cons_append]
    rw [rustToLowercaseGo_cons, hAB]
    simp [List.append_assoc]

/-! ### Claims -/

/-- Claim C1: for every non-empty query string and every contents string,
`search query contents true` returns only matches whose text contains the
query as an exact substring, and the matches appear in ascending
line-number order. -/
theorem search_sensitive_only_substring_sorted (q c : List Char) (_hq : q ≠ []) :
    (∀ m ∈ search q c true, ∃ pre post, m.text = pre ++ q ++ post) ∧
    ((search q c true).map Match.line).Pairwise (fun a b => a < b) := by
  constructor
  · intro m hm
    rw [search_eq_searchLoop] at hm
    have h := searchLoop_text_prop _ _ _ m hm
    exact (containsStr_iff m.text q).mp (by simpa [lineMatches] using h)
  · rw [search_eq_searchLoop]
    exact searchLoop_sorted _ _ _

/-- Witness for C1 at the repository's own test input. -/
theorem search_sensitive_only_substring_sorted_witness :
    (∀ m ∈ search "duct".toList "Rust:\nsafe, fast, productive.\nPick three.".toList true,
        ∃ pre post, m.text = pre ++ "duct".toList ++ post) ∧
    ((search "duct".toList "Rust:\nsafe, fast, productive.\nPick three.".toList true).map
        Match.line).Pairwise (fun a b => a < b) :=
  search_sensitive_only_substring_sorted "duct".toList
    "Rust:\nsafe, fast, productive.\nPick three.".toList (by decide)

/-- Counterexample to C2 as stated: searching for "a" in the contents
`"a\r\nb"` emits the match text `"a"`, while the first newline-delimited
segment of the contents is `"a\r"` — the emitted text is not the full
content of the segment (the trailing carriage return is stripped). -/
theorem match_text_not_full_segment :
    search "a".toList "a\r\nb".toList true = [⟨1, "a".toList⟩] ∧
    (splitOnNl "a\r\nb".toList).getD 0 [] = "a\r".toList ∧
    ("a".toList : List Char) ≠ "a\r".toList := by
  refine ⟨?_, ?_, ?_⟩ <;> decide

/-- Claim C2 (amended): for every contents string, every emitted match with
line number N carries the Nth newline-delimited segment of the contents
(1-based) as its text, except that a newline-terminated segment has a single
trailing carriage return removed; a final segment without a trailing newline
still counts as a line, and a trailing newline at the end of the contents
does not produce an extra empty line (the line count drops the empty final
segment exactly when the contents end with a newline or are empty). -/
theorem search_line_numbering (q c : List Char) (cs : Bool) :
    (rustLines c).length =
      (if (splitOnNl c).getLast? = some ([] : List Char) then (splitOnNl c).length - 1
       else (splitOnNl c).length) ∧
    (∀ n, 1 ≤ n → n ≤ (rustLines c).length →
      (rustLines c).getD (n - 1) [] =
        (if n = (splitOnNl c).length then (splitOnNl c).getD (n - 1) []
         else stripTrailingCr ((splitOnNl c).getD (n - 1) []))) ∧
    (∀ m ∈ search q c cs, 1 ≤ m.line ∧ m.line ≤ (rustLines c).length ∧
      m.text =
        (if m.line = (splitOnNl c).length then (splitOnNl c).getD (m.line - 1) []
         else stripTrailingCr ((splitOnNl c).getD (m.line - 1) []))) := by
  have hlen : (rustLines c).length =
      (if (splitOnNl c).getLast? = some ([] : List Char) then (splitOnNl c).length - 1
       else (splitOnNl c).length) :=
    linesAux_length _ (splitOnNl_ne_nil c)
  have hget : ∀ n, 1 ≤ n → n ≤ (rustLines c).length →
      (rustLines c).getD (n - 1) [] =
        (if n = (splitOnNl c).length then (splitOnNl c).getD (n - 1) []
         else stripTrailingCr ((splitOnNl c).getD (n - 1) [])) := by
    intro n h1 h2
    have hlt : n - 1 < (linesAux (splitOnNl c)).length := by
      rw [rustLines] at h2
      omega
    have := linesAux_getD (splitOnNl c) (n - 1) hlt
    rw [rustLines, this]
    have hn : n - 1 + 1 = n := by omega
    rw [hn]
  refine ⟨hlen, hget, ?_⟩
  intro m hm
  rw [search_eq_searchLoop] at hm
  obtain ⟨n, t⟩ := m
  rw [mem_searchLoop] at hm
  obtain ⟨i, hi, rfl, rfl, hp⟩ := hm
  refine ⟨?_, ?_, ?_⟩
  · show 1 ≤ 1 + i
    omega
  · show 1 + i ≤ (rustLines c).length
    omega
  · show (rustLines c).getD i [] =
      (if 1 + i = (splitOnNl c).length then (splitOnNl c).getD (1 + i - 1) []
       else stripTrailingCr ((splitOnNl c).getD (1 + i - 1) []))
    have hsub : 1 + i - 1 = i := by omega
    rw [hsub]
    have := hget (1 + i) (by omega) (by omega)
    rw [hsub] at this
    exact this

/-- Witness for C2 (amended) at the repository's own test input. -/
theorem search_line_numbering_witness :
    1 ≤ (Match.mk 2 "safe, fast, productive.".toList).line ∧
    (Match.mk 2 "safe, fast, productive.".toList).line ≤
      (rustLines "Rust:\nsafe, fast, productive.\nPick three.".toList).length ∧
    (Match.mk 2 "safe, fast, productive.".toList).text =
      (if (Match.mk 2 "safe, fast, productive.".toList).line =
            (splitOnNl "Rust:\nsafe, fast, productive.\nPick three.".toList).length
       then (splitOnNl "Rust:\nsafe, fast, productive.\nPick three.".toList).getD
              ((Match.mk 2 "safe, fast, productive.".toList).line - 1) []
       else stripTrailingCr
              ((splitOnNl "Rust:\nsafe, fast, productive.\nPick three.".toList).getD
                ((Match.mk 2 "safe, fast, productive.".toList).line - 1) [])) :=
  (search_line_numbering "duct".toList
      "Rust:\nsafe, fast, productive.\nPick three.".toList true).2.2
    (Match.mk 2 "safe, fast, productive.".toList) (by decide)

/-- Claim C3: case-insensitive search matches a line exactly when the
lowercased line contains the lowercased query, and every emitted match
carries the original (non-lowercased) line text. -/
theorem search_insensitive_characterisation (q c : List Char) (n : Nat) (t : List Char) :
    (⟨n, t⟩ : Match) ∈ search q c false ↔
      1 ≤ n ∧ n - 1 < (rustLines c).length ∧ t = (rustLines c).getD (n - 1) [] ∧
        ∃ pre post, strToLower t = pre ++ strToLower q ++ post := by
  rw [search_eq_searchLoop, mem_searchLoop]
  constructor
  · rintro ⟨i, hi, rfl, rfl, hp⟩
    have hsub : 1 + i - 1 = i := by omega
    refine ⟨by omega, by omega, by rw [hsub], ?_⟩
    exact (containsStr_iff _ _).mp (by simpa [lineMatches] using hp)
  · rintro ⟨h1, h2, rfl, hsub⟩
    refine ⟨n - 1, h2, by omega, rfl, ?_⟩
    simp only [lineMatches, if_neg (by simp : ¬ (false = true))]
    exact (containsStr_iff _ _).mpr hsub

/-- Witness for C3 at the repository's own test input. -/
theorem search_insensitive_characterisation_witness :
    (⟨1, "Rust:".toList⟩ : Match) ∈ search "rUsT".toList "Rust:\nTrust me.".toList false :=
  (search_insensitive_characterisation "rUsT".toList "Rust:\nTrust me.".toList 1
      "Rust:".toList).mpr
    ⟨by decide, by decide, by decide, [], [':'], by decide⟩

/-- Claim C4: `Config.parse` on a 3-argument list yields
`⟨args[1], args[2], true⟩`, and on a 4-argument list whose second entry is
the literal `-i` yields `⟨args[2], args[3], false⟩`. -/
theorem config_parse_valid_shapes (p q f : List Char) :
    Config.parse [p, q, f] = .ok ⟨q, f, true⟩ ∧
    Config.parse [p, "-i".toList, q, f] = .ok ⟨q, f, false⟩ := by
  exact ⟨rfl, by rw [Config.parse, if_pos rfl]⟩

/-- Claim C5: `Config.parse` returns an error exactly when the total argument
count is below 3, above 4, or equal to 4 with the first user argument not
`-i`; the count errors carry "Not enough arguments" / "Too many arguments"
followed by the usage text, and the invalid-option error quotes the
offending token followed by the usage text. -/
theorem config_parse_errors (args : List (List Char)) :
    ((∃ e, Config.parse args = .error e) ↔
        args.length < 3 ∨ 4 < args.length ∨
          (args.length = 4 ∧ args.getD 1 [] ≠ "-i".toList)) ∧
    (args.length < 3 →
        Config.parse args = .error ("Not enough arguments\n".toList ++ USAGE_STR)) ∧
    (4 < args.length →
        Config.parse args = .error ("Too many arguments\n".toList ++ USAGE_STR)) ∧
    (args.length = 4 → args.getD 1 [] ≠ "-i".toList →
        Config.parse args = .error ("First argument '".toList ++ args.getD 1 [] ++
          "' is not a valid option\n".toList ++ USAGE_STR)) := by
  rcases args with _ | ⟨a, _ | ⟨b, _ | ⟨c, _ | ⟨d, _ | ⟨e, rest⟩⟩⟩⟩⟩
  · refine ⟨by simp [Config.parse], fun _ => rfl, by simp, by simp⟩
  · refine ⟨by simp [Config.parse], fun _ => rfl, by simp, by simp⟩
  · refine ⟨by simp [Config.parse], fun _ => rfl, by simp, by simp⟩
  · refine ⟨by simp [Config.parse], by simp, by simp, by simp⟩
  · by_cases hb : b = "-i".toList
    · subst hb
      refine ⟨?_, by simp, by simp, ?_⟩
      · simp [Config.parse]
      · intro _ hne
        simp at hne
    · refine ⟨?_, by simp, by simp, ?_⟩
      · constructor
        · intro _
          refine Or.inr (Or.inr ⟨rfl, by simpa using hb⟩)
        · intro _
          exact ⟨_, by rw [Config.parse, if_neg hb]⟩
      · intro _ _
        rw [Config.parse, if_neg hb]
        simp
  · have hunfold : Config.parse (a :: b :: c :: d :: e :: rest) =
        (if (a :: b :: c :: d :: e :: rest).length < 3
         then .error ("Not enough arguments\n".toList ++ USAGE_STR)
         else .error ("Too many arguments\n".toList ++ USAGE_STR)) := rfl
    have hns : ¬ (a :: b :: c :: d :: e :: rest).length < 3 := by
      simp only [List.length_cons]
      omega
    refine ⟨?_, ?_, fun _ => ?_, by simp⟩
    · constructor
      · intro _
        refine Or.inr (Or.inl ?_)
        simp only [List.length_cons]
        omega
      · intro _
        exact ⟨_, by rw [hunfold, if_neg hns]⟩
    · intro hlt
      exact absurd hlt hns
    · rw [hunfold, if_neg hns]

/-- Witness for C5: one concrete input per error shape. -/
theorem config_parse_errors_witness :
    Config.parse ["prog".toList, "only-one".toList] =
      .error ("Not enough arguments\n".toList ++ USAGE_STR) ∧
    Config.parse ["prog".toList, "a".toList, "b".toList, "c".toList, "d".toList] =
      .error ("Too many arguments\n".toList ++ USAGE_STR) ∧
    Config.parse ["prog".toList, "-x".toList, "q".toList, "f".toList] =
      .error ("First argument '".toList ++ "-x".toList ++
        "' is not a valid option\n".toList ++ USAGE_STR) :=
  ⟨(config_parse_errors ["prog".toList, "only-one".toList]).2.1 (by decide),
   (config_parse_errors
      ["prog".toList, "a".toList, "b".toList, "c".toList, "d".toList]).2.2.1 (by decide),
   (config_parse_errors ["prog".toList, "-x".toList, "q".toList, "f".toList]).2.2.2
     (by decide) (by decide)⟩

/-- Claim C6: for every non-empty contents string and in both modes,
searching with the empty query returns a match for every line of the
contents: the match texts are exactly the lines in order, and the match
line numbers are exactly 1, 2, ..., number of lines. -/
theorem search_empty_query (c : List Char) (cs : Bool) (_hc : c ≠ []) :
    (search [] c cs).map Match.text = rustLines c ∧
    (search [] c cs).map Match.line = List.range' 1 (rustLines c).length := by
  rw [search_eq_searchLoop]
  refine searchLoop_all _ _ (fun l _ => ?_) 1
  cases cs <;> simp [lineMatches, strToLower, containsStr_nil]

/-- Witness for C6 at a concrete two-line contents. -/
theorem search_empty_query_witness :
    (search [] "x\ny".toList true).map Match.text = rustLines "x\ny".toList ∧
    (search [] "x\ny".toList true).map Match.line =
      List.range' 1 (rustLines "x\ny".toList).length :=
  search_empty_query "x\ny".toList true (by decide)

/-- Counterexample to C7 as stated: under the Unicode model of
`str::to_lowercase` (context-sensitive final-sigma rule), the query `"ΑΣ"`
and contents `"ΑΣΒ"` satisfy the claim's hypothesis — `Α` is an alphabetic
character with distinct case forms — and case-sensitive search matches
line 1, but case-insensitive search matches nothing: the query lowercases
to `"ας"` (word-final sigma) while the line lowercases to `"ασβ"` (medial
sigma), which does not contain `"ας"`. -/
theorem sigma_superset_counterexample :
    searchU "ΑΣ".toList "ΑΣΒ".toList true = [⟨1, "ΑΣΒ".toList⟩] ∧
    searchU "ΑΣ".toList "ΑΣΒ".toList false = [] ∧
    rustToLowercase "ΑΣ".toList = "ας".toList ∧
    rustToLowercase "ΑΣΒ".toList = "ασβ".toList ∧
    isCased 'Α' = true ∧ rustToLowercase ['Α'] ≠ ['Α'] := by
  refine ⟨?_, ?_, ?_, ?_, ?_, ?_⟩ <;> decide

/-- Claim C7 (amended): for every query that does not contain the capital
sigma — the one character `str::to_lowercase` converts context-sensitively —
and every contents, every line number matched by case-sensitive search is
also matched by case-insensitive search; with a capital sigma in the query
the inclusion can fail. -/
theorem search_insensitive_superset_sigma_free (q c : List Char)
    (hs : 'Σ' ∉ q) :
    ∀ m ∈ searchU q c true, ∃ m' ∈ searchU q c false, m'.line = m.line := by
  intro m hm
  obtain ⟨n, t⟩ := m
  have hm' : (⟨n, t⟩ : Match) ∈
      searchLoop (fun text => containsStr text q) (rustLines c) 1 := hm
  rw [mem_searchLoop] at hm'
  obtain ⟨i, hi, rfl, rfl, hp⟩ := hm'
  refine ⟨⟨1 + i, (rustLines c).getD i []⟩, ?_, rfl⟩
  show (⟨1 + i, (rustLines c).getD i []⟩ : Match) ∈
    searchLoop (fun text => containsStr (rustToLowercase text) (rustToLowercase q))
      (rustLines c) 1
  rw [mem_searchLoop]
  refine ⟨i, hi, rfl, rfl, ?_⟩
  show containsStr (rustToLowercase ((rustLines c).getD i []))
    (rustToLowercase q) = true
  have hp' : containsStr ((rustLines c).getD i []) q = true := hp
  obtain ⟨pre, post, ht⟩ := (containsStr_iff _ _).mp hp'
  rw [containsStr_iff, ht]
  obtain ⟨A, B, hAB⟩ := rustToLowercase_infix pre q post hs
  exact ⟨A, B, hAB⟩

/-- Witness for C7 (amended) at a concrete sigma-free Greek query. -/
theorem search_insensitive_superset_sigma_free_witness :
    ∃ m' ∈ searchU "Α".toList "ΑΒ".toList false,
      m'.line = (Match.mk 1 "ΑΒ".toList).line :=
  search_insensitive_superset_sigma_free "Α".toList "ΑΒ".toList (by decide)
    (Match.mk 1 "ΑΒ".toList) (by decide)

/-- Claim C8: when parsing succeeds but the file cannot be read, `run`
returns an error whose message contains the file path and the underlying
OS-level error description; the result does not depend on the search
function at all (the search engine is never invoked) and no match lines are
produced (no partial output). -/
theorem run_file_error (fs : List Char → Except (List Char) (List Char))
    (args : List (List Char)) (cfg : Config) (e : List Char)
    (h1 : Config.parse args = .ok cfg) (h2 : fs cfg.filename = .error e) :
    ∃ msg, run fs args = .error msg ∧
      (∀ searchFn, runWith searchFn fs args = .error msg) ∧
      (∃ pre post, msg = pre ++ cfg.filename ++ post) ∧
      (∃ pre post, msg = pre ++ e ++ post) := by
  refine ⟨"Error reading \"".toList ++ cfg.filename ++ "\": ".toList ++ e, ?_, ?_, ?_, ?_⟩
  · simp [run, runWith, read_file, h1, h2]
  · intro searchFn
    simp [runWith, read_file, h1, h2]
  · exact ⟨"Error reading \"".toList, "\": ".toList ++ e, by simp⟩
  · exact ⟨"Error reading \"".toList ++ cfg.filename ++ "\": ".toList, [], by simp⟩

/-- Witness for C8 with a file system oracle that rejects every name. -/
theorem run_file_error_witness :
    ∃ msg,
      run (fun _ => .error "No such file or directory".toList)
          ["prog".toList, "q".toList, "f.txt".toList] = .error msg ∧
      (∀ searchFn,
        runWith searchFn (fun _ => .error "No such file or directory".toList)
          ["prog".toList, "q".toList, "f.txt".toList] = .error msg) ∧
      (∃ pre post,
        msg = pre ++ (Config.mk "q".toList "f.txt".toList true).filename ++ post) ∧
      (∃ pre post, msg = pre ++ "No such file or directory".toList ++ post) :=
  run_file_error (fun _ => .error "No such file or directory".toList)
    ["prog".toList, "q".toList, "f.txt".toList]
    (Config.mk "q".toList "f.txt".toList true) "No such file or directory".toList
    rfl rfl

/-- Claim C9 (implicit): the two-character sequence CR LF is treated as a
line delimiter, and the trailing carriage return is excluded from the
emitted match's text: if the first line `u` (no newline in it) is followed
by CR LF and matches, the emitted match text is `u` itself, while the full
newline-delimited segment is `u ++ [CR]`. -/
theorem search_crlf_handling (u v q : List Char) (cs : Bool)
    (hu : '\n' ∉ u) (hm : lineMatches q u cs = true) :
    (∃ rest, search q (u ++ '\r' :: '\n' :: v) cs = ⟨1, u⟩ :: rest) ∧
    (splitOnNl (u ++ '\r' :: '\n' :: v)).getD 0 [] = u ++ ['\r'] := by
  constructor
  · refine ⟨searchLoop (fun t => lineMatches q t cs) (rustLines v) 2, ?_⟩
    rw [search_eq_searchLoop, rustLines_crlf u v hu]
    rw [searchLoop]
    rw [if_pos hm]
  · rw [splitOnNl_crlf u v hu]
    simp

/-- Witness for C9 at a concrete CR LF contents. -/
theorem search_crlf_handling_witness :
    (∃ rest, search "a".toList ("a".toList ++ '\r' :: '\n' :: "b".toList) true =
        ⟨1, "a".toList⟩ :: rest) ∧
    (splitOnNl ("a".toList ++ '\r' :: '\n' :: "b".toList)).getD 0 [] =
      "a".toList ++ ['\r'] :=
  search_crlf_handling "a".toList "b".toList "a".toList true (by decide) (by decide)

/-- Claim C10 (implicit): searching empty contents returns the empty list of
matches for every query and both case-sensitivity modes. -/
theorem search_empty_contents (q : List Char) (cs : Bool) :
    search q [] cs = [] := by
  cases cs <;> rfl

end Minigrep
